import Mathlib

/-!
Shallow embedding of the TrashManagementBackend repository
(`app.py`, `utils/mega_utils.py`, `utils/file_utils.py`,
`utils/db_utils.py`, `utils/category_utils.py`).

The Mega remote object store is modelled as an insertion-ordered list of
nodes (id, metadata), mirroring the `files` dict the Mega SDK exposes.
MongoDB collections are modelled as insertion-ordered lists of documents.
MD5 hashing is an external primitive (the spec treats `hash(bytes) -> digest`
as a provided capability), so it is a function parameter throughout.
-/

namespace TrashBackend

/-- Raw file content. -/
abbrev Bytes := List Nat

/-- Node metadata as it appears in the Mega SDK files map:
`t` (0 = file, 1 = folder), the `a` attribute dict possibly holding the
name under key `n` (`attrA = none` models a missing `"a"` key, `some none`
models `"a"` present without `"n"`), and `p` the parent node id. -/
structure Meta where
  t : Nat
  attrA : Option (Option String)
  p : Option Nat
  deriving DecidableEq

/-- Model of `meta.get("a", {}).get("n")`. -/
def Meta.name (m : Meta) : Option String := m.attrA.bind id

/-- The Mega account state: the insertion-ordered node map together with a
fresh-handle counter used when the model creates folders or files. -/
structure MegaState where
  files : List (Nat × Meta)
  nextId : Nat
  deriving DecidableEq

/-- Model of `client.get_files_in_node(parent)`: the immediate children of a node,
in node-map order. -/
def get_files_in_node (s : MegaState) (parent : Nat) : List (Nat × Meta) :=
  s.files.filter (fun e => e.2.p == some parent)

/-- The child scan of `_find_or_create_folder` (`mega_utils.py` lines 28-32):
first child with `t == 1` and attribute name equal to the requested name. -/
def findChildFolder (s : MegaState) (parentId : Nat) (folderName : String) :
    Option (Nat × Meta) :=
  (get_files_in_node s parentId).find?
    (fun e => e.2.t == 1 && e.2.name == some folderName)

/-- Model of `_find_or_create_folder` (`mega_utils.py` lines 19-55): return the id of
an existing child folder of that name, otherwise create one under the parent
and return its id.  The vendor return-shape normalization (dict/list/str/
tuple) collapses in the model to the handle itself. -/
def _find_or_create_folder (s : MegaState) (parentId : Nat) (folderName : String) :
    Nat × MegaState :=
  match findChildFolder s parentId folderName with
  | some e => (e.1, s)
  | none =>
      let fid := s.nextId
      (fid, ⟨s.files ++ [(fid, ⟨1, some (some folderName), some parentId⟩)],
             s.nextId + 1⟩)

/-- Number of child folders of `parentId` carrying the given name. -/
def countFoldersNamed (s : MegaState) (parentId : Nat) (folderName : String) : Nat :=
  (get_files_in_node s parentId).countP
    (fun e => e.2.t == 1 && e.2.name == some folderName)

theorem get_files_in_node_append (files : List (Nat × Meta)) (n : Nat)
    (e : Nat × Meta) (parent : Nat) :
    get_files_in_node ⟨files ++ [e], n⟩ parent =
      get_files_in_node ⟨files, n⟩ parent ++ if e.2.p == some parent then [e] else [] := by
  cases h : (e.2.p == some parent) <;>
    simp [get_files_in_node, List.filter_append, List.filter, h]

theorem find?_append_none {α : Type} (p : α → Bool) (l1 l2 : List α)
    (h : l1.find? p = none) : (l1 ++ l2).find? p = l2.find? p := by
  induction l1 with
  | nil => simp
  | cons a l ih =>
      rcases hp : p a with _ | _
      · simpa [List.find?, hp] using ih (by simpa [List.find?, hp] using h)
      · simp [List.find?, hp] at h

/-- C8.  First call returns `(r1, s1)`; the second call on `s1` returns the
same reference and leaves the state unchanged; the number of folders of that
name under the parent afterwards is `max (old count) 1` (so an existing
folder is never duplicated); and the returned reference really is a folder
of the requested name under the parent. -/
theorem find_or_create_folder_idempotent (s : MegaState) (p : Nat) (n : String) :
    _find_or_create_folder (_find_or_create_folder s p n).2 p n =
      _find_or_create_folder s p n
    ∧ countFoldersNamed (_find_or_create_folder s p n).2 p n =
        max (countFoldersNamed s p n) 1
    ∧ ∃ m, ((_find_or_create_folder s p n).1, m) ∈
          get_files_in_node (_find_or_create_folder s p n).2 p
        ∧ m.t = 1 ∧ m.name = some n := by
  rcases hf : findChildFolder s p n with _ | e
  · -- creation case
    have hnone : (get_files_in_node s p).find?
        (fun e => e.2.t == 1 && e.2.name == some n) = none := hf
    have hfilter : get_files_in_node
        ⟨s.files ++ [(s.nextId, ⟨1, some (some n), some p⟩)], s.nextId + 1⟩ p =
        get_files_in_node s p ++ [(s.nextId, ⟨1, some (some n), some p⟩)] := by
      have := get_files_in_node_append s.files (s.nextId + 1)
        (s.nextId, ⟨1, some (some n), some p⟩) p
      simpa [show get_files_in_node ⟨s.files, s.nextId + 1⟩ p = get_files_in_node s p
        from rfl] using this
    have hname : (Meta.name ⟨1, some (some n), some p⟩) = some n := rfl
    have hfind2 : findChildFolder
        ⟨s.files ++ [(s.nextId, ⟨1, some (some n), some p⟩)], s.nextId + 1⟩ p n =
        some (s.nextId, ⟨1, some (some n), some p⟩) := by
      unfold findChildFolder
      rw [hfilter, find?_append_none _ _ _ hnone]
      simp [List.find?, hname]
    have hcount : countFoldersNamed s p n = 0 := by
      unfold countFoldersNamed
      have := List.find?_eq_none.mp hnone
      refine List.countP_eq_zero.mpr ?_
      intro a ha
      exact Bool.not_eq_true _ ▸ (by simpa using this a ha)
    constructor
    · simp only [_find_or_create_folder, hf]
      simp only [_find_or_create_folder, hfind2]
    constructor
    · simp only [_find_or_create_folder, hf]
      unfold countFoldersNamed
      rw [hfilter, List.countP_append]
      have hcz : countFoldersNamed s p n = 0 := hcount
      unfold countFoldersNamed at hcz
      rw [hcz]
      simp [List.countP_cons, Meta.name]
    · refine ⟨⟨1, some (some n), some p⟩, ?_, rfl, rfl⟩
      simp only [_find_or_create_folder, hf]
      rw [hfilter]
      simp
  · -- found case
    have hmem := List.mem_of_find?_eq_some hf
    have hpred := List.find?_some hf
    have ht : e.2.t = 1 := by
      have := (Bool.and_eq_true _ _).mp hpred
      exact Nat.beq_eq_true_eq _ _ |>.mp this.1
    have hn : e.2.name = some n := by
      have := (Bool.and_eq_true _ _).mp hpred
      simpa using this.2
    have hres : _find_or_create_folder s p n = (e.1, s) := by
      simp [_find_or_create_folder, hf]
    constructor
    · rw [hres]
      simp [_find_or_create_folder, hf]
    constructor
    · rw [hres]
      have hpos : 0 < countFoldersNamed s p n :=
        List.countP_pos.mpr ⟨e, hmem, hpred⟩
      exact (max_eq_left hpos).symm
    · rw [hres]
      exact ⟨e.2, by simpa using hmem, ht, by simpa using hn⟩

/-- Modelled from the spec: the Remote Object Store collaborator contract
(§6) gives `delete(ref) -> bool` as idempotent; the SDK call
`client.destroy(file_id)` is external to this repository.  Removes the node
when present, is a no-op otherwise; the fresh-handle counter is untouched. -/
def megaDestroy (s : MegaState) (fid : Nat) : MegaState :=
  ⟨s.files.filter (fun e => !(e.1 == fid)), s.nextId⟩

/-- Model of `delete_mega_file` (`mega_utils.py` lines 143-147): destroy by id and
report `True`. -/
def delete_mega_file (s : MegaState) (fid : Nat) : MegaState × Bool :=
  (megaDestroy s fid, true)

/-- Model of `client.find("dataset")`: first folder node carrying that name; the
callers normalize the SDK's varying return shapes down to the handle. -/
def megaFindFolder (s : MegaState) (folderName : String) : Option Nat :=
  (s.files.find? (fun e => e.2.t == 1 && e.2.name == some folderName)).map (·.1)

/-- Step 2 of `upload_to_mega` (`mega_utils.py` lines 95-96): traverse or
create the folders along the hierarchy, starting from the dataset root. -/
def uploadFolderChain (s : MegaState) (parentId : Nat) (hierarchy : List String) :
    Nat × MegaState :=
  hierarchy.foldl (fun acc level => _find_or_create_folder acc.2 acc.1 level)
    (parentId, s)

/-- Model of `upload_to_mega` (`mega_utils.py` lines 64-139): find the `dataset`
root (failure is caught and surfaced as `None` before any mutation), walk or
create the hierarchy folders, then upload the file into the final folder;
returns the new file's id.  The export-link step does not touch state and is
omitted. -/
def upload_to_mega (s : MegaState) (hierarchy : List String) (fname : String) :
    Option (Nat × MegaState) :=
  match megaFindFolder s "dataset" with
  | none => none
  | some rootId =>
      let pc := uploadFolderChain s rootId hierarchy
      let fid := pc.2.nextId
      some (fid, ⟨pc.2.files ++ [(fid, ⟨0, some (some fname), some pc.1⟩)],
                  pc.2.nextId + 1⟩)

/-- One document of the `dataset_images` Mongo collection, with the fields
the dedup logic reads: `_id`, the Mega file id stored under `"id"`, the
hierarchy, and the (possibly absent) content hash. -/
structure Doc where
  mid : Nat
  megaId : Option Nat
  hierarchy : List String
  hash? : Option String
  deriving DecidableEq

/-- Full backend state: Mega account plus the `dataset_images` collection
and the Mongo `_id` counter. -/
structure AppState where
  mega : MegaState
  db : List Doc
  nextMid : Nat
  deriving DecidableEq

/-- Character-level split on `/`, accumulating the current segment in
reverse. -/
def splitOnSlash : List Char → List Char → List String
  | [], cur => [String.mk cur.reverse]
  | c :: rest, cur =>
      if c = '/' then String.mk cur.reverse :: splitOnSlash rest []
      else splitOnSlash rest (c :: cur)

/-- Model of `hierarchy.split("/") if "/" in hierarchy else [hierarchy]`
(`app.py` line 144); splitting on `/` returns the singleton when the
separator does not occur, so the two Python branches coincide. -/
def parseHierarchy (s : String) : List String := splitOnSlash s.data []

/-- Model of `upload_dataset_image` (`app.py` lines 129-186) as the code executes it:
hash the bytes, upload to Mega (creating hierarchy folders), then insert the
metadata record via `save_to_mongo` (the incoming record always carries
`"hash"`, so `save_to_mongo` inserts it unchanged).  No duplicate-removal
step runs: `remove_duplicate_from_other_categories` is imported by `app.py`
but never called. -/
def upload_dataset_image (md5 : Bytes → String) (st : AppState)
    (fileBytes : Bytes) (hierarchyField : String) (fname : String) :
    Except String (Doc × AppState) :=
  if hierarchyField = "" then .error "Missing hierarchy field"
  else
    let hierarchy := parseHierarchy hierarchyField
    let fileHash := md5 fileBytes
    match upload_to_mega st.mega hierarchy fname with
    | none => .error "Upload failed"
    | some (fid, mega2) =>
        let rec1 : Doc := ⟨st.nextMid, some fid, hierarchy, some fileHash⟩
        .ok (rec1, ⟨mega2, st.db ++ [rec1], st.nextMid + 1⟩)

/-- Total runner for upload chains: the state after a successful upload,
the unchanged state on error. -/
def runUpload (md5 : Bytes → String) (st : AppState) (fileBytes : Bytes)
    (hierarchyField : String) (fname : String) : AppState :=
  match upload_dataset_image md5 st fileBytes hierarchyField fname with
  | .ok r => r.2
  | .error _ => st

/-- Model of `coll.delete_one({"_id": id})`: remove the first document with that
`_id`. -/
def deleteOneById : List Doc → Nat → List Doc
  | [], _ => []
  | d :: rest, i => if d.mid = i then rest else d :: deleteOneById rest i

/-- The per-duplicate body of `remove_duplicate_from_other_categories`
(`file_utils.py` lines 48-73): destroy the Mega file when the record has
one, then delete the DB record by `_id`. -/
def removeDupLoop : List Doc → MegaState → List Doc → List Nat →
    MegaState × List Doc × List Nat
  | [], mega, db, removed => (mega, db, removed)
  | d :: rest, mega, db, removed =>
      let mega2 := match d.megaId with
        | some m => megaDestroy mega m
        | none => mega
      removeDupLoop rest mega2 (deleteOneById db d.mid) (removed ++ [d.mid])

/-- Model of `remove_duplicate_from_other_categories` (`file_utils.py` lines 35-80):
find every record carrying the incoming hash and delete each one from Mega
and from the collection.  The `new_hierarchy` argument is accepted but never
consulted — matching records are removed whether or not their hierarchy
differs from the requested one. -/
def remove_duplicate_from_other_categories (st : AppState) (fileHash : String)
    (newHierarchy : List String) : (Nat × List Nat) × AppState :=
  let dups := st.db.filter (fun d => d.hash? == some fileHash)
  let out := removeDupLoop dups st.mega st.db []
  ((out.2.2.length, out.2.2), ⟨out.1, out.2.1, st.nextMid⟩)

/-- Model of `delete_from_mongo` (`db_utils.py` lines 62-64):
`collection.delete_one({"id": file_id})`, returning the deleted count. -/
def delete_from_mongo : List Doc → Nat → List Doc × Nat
  | [], _ => ([], 0)
  | d :: rest, fid =>
      if d.megaId = some fid then (rest, 1)
      else
        let r := delete_from_mongo rest fid
        (d :: r.1, r.2)

/-- Model of `delete_dataset_image` (`app.py` lines 250-266): destroy the Mega node,
delete the metadata record; both the "deleted" and the "no record found"
outcomes answer HTTP 200. -/
def delete_dataset_image (st : AppState) (fid : Nat) : Nat × AppState :=
  let mega2 := megaDestroy st.mega fid
  let dm := delete_from_mongo st.db fid
  (200, ⟨mega2, dm.1, st.nextMid⟩)

/-- Response of `delete_category`: the removed node and its parent path
(`None` for a top-level category). -/
structure DelCategoryResp where
  deleted : String
  parent : Option (List String)
  deriving DecidableEq

/-- Model of `delete_category` (`app.py` lines 270-287): reject a missing/empty
hierarchy, otherwise delete every collection record whose hierarchy exactly
equals the given path ("For simplicity: just delete all DB entries under
that hierarchy") and answer with the removed node and its parent.  The Mega
store is not touched. -/
def delete_category (st : AppState) (hierarchy : List String) :
    Except String (DelCategoryResp × AppState) :=
  if h : hierarchy = [] then .error "Hierarchy list required"
  else
    .ok (⟨hierarchy.getLast h,
          if 1 < hierarchy.length then some hierarchy.dropLast else none⟩,
         ⟨st.mega, st.db.filter (fun d => !(d.hierarchy == hierarchy)), st.nextMid⟩)

/-- The loop body of `remove_all_duplicates` (`file_utils.py` lines 145-176):
walk the collection snapshot; a record with a falsy hash is skipped (but
counted as scanned); the first record seen for a hash marks it; every later
record with a marked hash is destroyed in Mega (when it has a file id) and
deleted from the collection. -/
def sweepLoop : List Doc → List String → MegaState → List Doc → List Nat →
    Nat → MegaState × List Doc × List Nat × Nat
  | [], _, mega, db, removed, total => (mega, db, removed, total)
  | d :: rest, seen, mega, db, removed, total =>
      match d.hash? with
      | none => sweepLoop rest seen mega db removed (total + 1)
      | some h =>
          if h = "" then sweepLoop rest seen mega db removed (total + 1)
          else if h ∈ seen then
            let mega2 := match d.megaId with
              | some m => megaDestroy mega m
              | none => mega
            sweepLoop rest seen mega2 (deleteOneById db d.mid)
              (removed ++ [d.mid]) (total + 1)
          else sweepLoop rest (seen ++ [h]) mega db removed (total + 1)

/-- Result record of `remove_all_duplicates`: `scanned`, `removed_count`
and `removed_ids`. -/
structure SweepResult where
  scanned : Nat
  removedCount : Nat
  removedIds : List Nat
  deriving DecidableEq

/-- Model of `remove_all_duplicates` (`file_utils.py` lines 132-184): the global
first-hash-wins sweep over the whole collection. -/
def remove_all_duplicates (st : AppState) : SweepResult × AppState :=
  let out := sweepLoop st.db [] st.mega st.db [] 0
  (⟨out.2.2.2, out.2.2.1.length, out.2.2.1⟩, ⟨out.1, out.2.1, st.nextMid⟩)

/-- Number of live collection records carrying the given fingerprint. -/
def liveRecordsWithHash (db : List Doc) (h : String) : Nat :=
  db.countP (fun d => d.hash? == some h)

/-- The spec's single-owner invariant: at most one live record per
fingerprint. -/
def singleOwner (db : List Doc) : Prop :=
  ∀ h : String, liveRecordsWithHash db h ≤ 1

/-- Spec-side statement of the sweep's keep rule, in the claim's words:
scan in order, keep the first record seen for each fingerprint (records
without a usable hash are always kept), drop every later record sharing a
seen fingerprint. -/
def specKeepFirstPerFingerprint : List Doc → List String → List Doc
  | [], _ => []
  | d :: rest, seen =>
      match d.hash? with
      | none => d :: specKeepFirstPerFingerprint rest seen
      | some h =>
          if h = "" then d :: specKeepFirstPerFingerprint rest seen
          else if h ∈ seen then specKeepFirstPerFingerprint rest seen
          else d :: specKeepFirstPerFingerprint rest (seen ++ [h])

/-- Concrete stand-in digest function for the external MD5 primitive, used
only to evaluate the model on explicit inputs. -/
def md5demo (b : Bytes) : String :=
  "h" ++ Nat.repr (b.foldl (fun a x => a * 1000003 + x + 1) 7)

/-! Concrete scenario: a Mega account holding just the `dataset` root, an
empty collection, and one file's bytes uploaded under `glass` and then under
`plastic/pet` (the spec's two-upload scenario). -/

/-- Mega account with only the `dataset` root folder. -/
def demoRootMega : MegaState := ⟨[(0, ⟨1, some (some "dataset"), none⟩)], 1⟩

/-- Fresh backend state. -/
def demoSt0 : AppState := ⟨demoRootMega, [], 0⟩

/-- The uploaded image bytes. -/
def demoBytes : Bytes := [3, 1, 4]

/-- Their fingerprint under the demo digest. -/
def demoHash : String := md5demo demoBytes

/-- State after uploading the bytes under `glass`. -/
def demoSt1 : AppState := runUpload md5demo demoSt0 demoBytes "glass" "f1"

/-- State after then uploading identical bytes under `plastic/pet`, exactly
as the code executes it (no dedup step). -/
def demoSt2 : AppState := runUpload md5demo demoSt1 demoBytes "plastic/pet" "f2"

/-- State after instead running the dedup helper on `demoSt1` with the
incoming fingerprint (the composition `upload_dataset_image` never
performs). -/
def demoEvict1 : AppState :=
  (remove_duplicate_from_other_categories demoSt1 demoHash ["plastic", "pet"]).2

/-- State after additionally uploading the identical bytes under `plastic/pet`. -/
def demoEvict2 : AppState := runUpload md5demo demoEvict1 demoBytes "plastic/pet" "f2"

/-- C1 counterexample.  Uploading identical bytes twice (under `glass`, then
under `plastic/pet`) through `upload_dataset_image` leaves two live records
with the same fingerprint: the upload path enforces no single-owner
invariant. -/
theorem upload_does_not_enforce_single_owner : ¬ singleOwner demoSt2.db := by
  intro hall
  have h2 : liveRecordsWithHash demoSt2.db demoHash = 2 := by decide
  have := hall demoHash
  omega

/-- C2 counterexample.  After uploading identical bytes first under `glass`
and then under `plastic/pet`, both records remain (one still under `glass`)
and the `glass` remote object still exists — the second upload performed no
eviction. -/
theorem evict_stale_not_applied_on_upload :
    demoSt2.db.length = 2
    ∧ liveRecordsWithHash demoSt2.db demoHash = 2
    ∧ demoSt2.db.countP (fun d => d.hierarchy == ["glass"]) = 1
    ∧ (2, (⟨0, some (some "f1"), some 1⟩ : Meta)) ∈ demoSt2.mega.files := by
  refine ⟨by decide, by decide, by decide, by decide⟩

/-! Characterization of `remove_duplicate_from_other_categories`. -/

/-- Sequential `delete_one` by `_id` over a list of ids. -/
def deleteAllByMids (db : List Doc) (mids : List Nat) : List Doc :=
  mids.foldl deleteOneById db

theorem removeDupLoop_db (dups : List Doc) :
    ∀ mega db removed,
      (removeDupLoop dups mega db removed).2.1 = deleteAllByMids db (dups.map (·.mid)) := by
  induction dups with
  | nil => intro mega db removed; rfl
  | cons d rest ih =>
      intro mega db removed
      simp only [removeDupLoop]
      rw [ih]
      rfl

theorem deleteOneById_skip (d : Doc) (l : List Doc) (m : Nat) (h : d.mid ≠ m) :
    deleteOneById (d :: l) m = d :: deleteOneById l m := by
  simp [deleteOneById, h]

theorem deleteAllByMids_skip (mids : List Nat) :
    ∀ d db, (∀ m ∈ mids, m ≠ d.mid) →
      deleteAllByMids (d :: db) mids = d :: deleteAllByMids db mids := by
  induction mids with
  | nil => intro d db _; rfl
  | cons m rest ih =>
      intro d db h
      have hm : d.mid ≠ m := fun e => h m (List.mem_cons_self m rest) e.symm
      simp only [deleteAllByMids, List.foldl_cons]
      rw [deleteOneById_skip d db m hm]
      exact ih d (deleteOneById db m) (fun x hx => h x (List.mem_cons_of_mem m hx))

theorem deleteAllByMids_filter (p : Doc → Bool) :
    ∀ db : List Doc, (db.map (·.mid)).Nodup →
      deleteAllByMids db ((db.filter p).map (·.mid)) = db.filter (fun d => !(p d)) := by
  intro db
  induction db with
  | nil => intro _; rfl
  | cons d rest ih =>
      intro hnd
      rw [List.map_cons] at hnd
      have hnotin : d.mid ∉ rest.map (·.mid) := (List.nodup_cons.mp hnd).1
      have hrest : (rest.map (·.mid)).Nodup := (List.nodup_cons.mp hnd).2
      rcases hp : p d with _ | _
      · -- kept
        have hmids : ∀ m ∈ (rest.filter p).map (·.mid), m ≠ d.mid := by
          intro m hm he
          apply hnotin
          rw [List.mem_map] at hm
          obtain ⟨x, hx, hxe⟩ := hm
          rw [List.mem_map]
          exact ⟨x, (List.filter_sublist _).subset hx, by rw [hxe, he]⟩
        have hfc : (d :: rest).filter p = rest.filter p := by
          simp [List.filter_cons, hp]
        have hfc2 : (d :: rest).filter (fun x => !(p x)) =
            d :: rest.filter (fun x => !(p x)) := by
          simp [List.filter_cons, hp]
        rw [hfc, hfc2, deleteAllByMids_skip _ d rest hmids, ih hrest]
      · -- removed
        have hfc : (d :: rest).filter p = d :: rest.filter p := by
          simp [List.filter_cons, hp]
        have hfc2 : (d :: rest).filter (fun x => !(p x)) =
            rest.filter (fun x => !(p x)) := by
          simp [List.filter_cons, hp]
        rw [hfc, hfc2, List.map_cons]
        have hstep : deleteAllByMids (d :: rest)
            (d.mid :: (rest.filter p).map (·.mid)) =
            deleteAllByMids rest ((rest.filter p).map (·.mid)) := by
          show List.foldl deleteOneById (deleteOneById (d :: rest) d.mid) _ = _
          congr 1
          simp [deleteOneById]
        rw [hstep, ih hrest]

/-- The dedup helper deletes exactly the records carrying the given hash. -/
theorem remove_duplicate_db (st : AppState) (fileHash : String)
    (newHierarchy : List String) (hmid : (st.db.map (·.mid)).Nodup) :
    ((remove_duplicate_from_other_categories st fileHash newHierarchy).2).db =
      st.db.filter (fun d => !(d.hash? == some fileHash)) := by
  simp only [remove_duplicate_from_other_categories]
  rw [removeDupLoop_db]
  exact deleteAllByMids_filter _ st.db hmid

/-- C1 amended.  The single-owner invariant is not maintained by
`upload_dataset_image`; it is what `remove_duplicate_from_other_categories`
establishes: right after it runs, no live record carries the fingerprint,
and an upload of matching bytes performed immediately afterwards yields
exactly one live record for it. -/
theorem single_owner_restored_by_dedup_helper (md5 : Bytes → String)
    (st : AppState) (bytes : Bytes) (hier : List String)
    (hierStr fname : String) (hmid : (st.db.map (·.mid)).Nodup) :
    liveRecordsWithHash
        ((remove_duplicate_from_other_categories st (md5 bytes) hier).2).db
        (md5 bytes) = 0
    ∧ ∀ d st2,
        upload_dataset_image md5
            ((remove_duplicate_from_other_categories st (md5 bytes) hier).2)
            bytes hierStr fname = .ok (d, st2) →
        liveRecordsWithHash st2.db (md5 bytes) = 1 := by
  have hz : liveRecordsWithHash
      ((remove_duplicate_from_other_categories st (md5 bytes) hier).2).db
      (md5 bytes) = 0 := by
    rw [remove_duplicate_db st (md5 bytes) hier hmid]
    refine List.countP_eq_zero.mpr ?_
    intro d hd
    have := (List.mem_filter.mp hd).2
    simpa using this
  refine ⟨hz, ?_⟩
  intro d st2 hok
  unfold upload_dataset_image at hok
  by_cases hs : hierStr = ""
  · simp [hs] at hok
  · simp only [if_neg hs] at hok
    rcases hup : upload_to_mega
        ((remove_duplicate_from_other_categories st (md5 bytes) hier).2).mega
        (parseHierarchy hierStr) fname with _ | pr
    · rw [hup] at hok; exact absurd hok (by simp)
    · rw [hup] at hok
      have hst2 : st2 = ⟨pr.2,
          ((remove_duplicate_from_other_categories st (md5 bytes) hier).2).db ++
            [⟨((remove_duplicate_from_other_categories st (md5 bytes) hier).2).nextMid,
              some pr.1, parseHierarchy hierStr, some (md5 bytes)⟩],
          ((remove_duplicate_from_other_categories st (md5 bytes) hier).2).nextMid + 1⟩ := by
        cases hok
        rfl
      rw [hst2]
      simp only [liveRecordsWithHash, List.countP_append]
      rw [show List.countP (fun d => d.hash? == some (md5 bytes))
          ((remove_duplicate_from_other_categories st (md5 bytes) hier).2).db = 0
        from hz]
      simp [List.countP_cons]

/-- Witness for `single_owner_restored_by_dedup_helper` at the concrete
scenario state. -/
theorem single_owner_restored_by_dedup_helper_witness :
    (demoSt1.db.map (·.mid)).Nodup
    ∧ liveRecordsWithHash demoEvict1.db demoHash = 0
    ∧ liveRecordsWithHash demoEvict2.db demoHash = 1 := by
  have hmid : (demoSt1.db.map (·.mid)).Nodup := by decide
  have h := single_owner_restored_by_dedup_helper md5demo demoSt1 demoBytes
    ["plastic", "pet"] "plastic/pet" "f2" hmid
  refine ⟨hmid, h.1, ?_⟩
  have hok : upload_dataset_image md5demo demoEvict1 demoBytes "plastic/pet" "f2" =
      .ok (⟨1, some 5, ["plastic", "pet"], some demoHash⟩, demoEvict2) := by rfl
  exact h.2 _ _ hok

/-- C2 amended.  The eviction lives in
`remove_duplicate_from_other_categories` (which `upload_dataset_image` never
invokes) and deletes every existing same-hash record unconditionally — even
one whose hierarchy equals the requested one.  Running it before the second
upload produces the claimed end state: exactly one record, under
`plastic/pet`, zero records under `glass`, no remote object left inside the
`glass` folder, and the original `glass` object gone. -/
theorem evict_helper_then_upload_end_state :
    demoEvict2.db.map (·.hierarchy) = [["plastic", "pet"]]
    ∧ liveRecordsWithHash demoEvict2.db demoHash = 1
    ∧ demoEvict2.db.countP (fun d => d.hierarchy == ["glass"]) = 0
    ∧ demoEvict2.mega.files.filter (fun e => e.2.t == 0 && e.2.p == some 1) = []
    ∧ 2 ∉ demoEvict2.mega.files.map (·.1)
    ∧ (remove_duplicate_from_other_categories demoSt1 demoHash ["glass"]).2.db = [] := by
  refine ⟨by decide, by decide, by decide, by decide, by decide, by decide⟩

/-! Characterization of `remove_all_duplicates`. -/

/-- The node ids present in the Mega account. -/
def megaIds (s : MegaState) : List Nat := s.files.map (·.1)

/-- The `_id`s the sweep classifies as duplicates, in scan order. -/
def dupMids : List Doc → List String → List Nat
  | [], _ => []
  | d :: rest, seen =>
      match d.hash? with
      | none => dupMids rest seen
      | some h =>
          if h = "" then dupMids rest seen
          else if h ∈ seen then d.mid :: dupMids rest seen
          else dupMids rest (seen ++ [h])

theorem sweepLoop_scanned (docs : List Doc) :
    ∀ seen mega db removed total,
      (sweepLoop docs seen mega db removed total).2.2.2 = total + docs.length := by
  induction docs with
  | nil => intro seen mega db removed total; simp [sweepLoop]
  | cons d rest ih =>
      intro seen mega db removed total
      cases hh : d.hash? with
      | none => simp only [sweepLoop, hh]; rw [ih]; simp; omega
      | some h =>
          by_cases he : h = ""
          · simp only [sweepLoop, hh, if_pos he]; rw [ih]; simp; omega
          · by_cases hs : h ∈ seen
            · simp only [sweepLoop, hh, if_neg he, if_pos hs]; rw [ih]; simp; omega
            · simp only [sweepLoop, hh, if_neg he, if_neg hs]; rw [ih]; simp; omega

theorem sweepLoop_removed (docs : List Doc) :
    ∀ seen mega db removed total,
      (sweepLoop docs seen mega db removed total).2.2.1 = removed ++ dupMids docs seen := by
  induction docs with
  | nil => intro seen mega db removed total; simp [sweepLoop, dupMids]
  | cons d rest ih =>
      intro seen mega db removed total
      cases hh : d.hash? with
      | none => simp only [sweepLoop, hh, dupMids]; rw [ih]
      | some h =>
          by_cases he : h = ""
          · simp only [sweepLoop, hh, if_pos he, dupMids]; rw [ih]
          · by_cases hs : h ∈ seen
            · simp only [sweepLoop, hh, if_neg he, if_pos hs, dupMids]
              rw [ih]
              simp
            · simp only [sweepLoop, hh, if_neg he, if_neg hs, dupMids]; rw [ih]

theorem specKeep_dupMids_length (docs : List Doc) :
    ∀ seen, (specKeepFirstPerFingerprint docs seen).length +
      (dupMids docs seen).length = docs.length := by
  induction docs with
  | nil => intro seen; simp [specKeepFirstPerFingerprint, dupMids]
  | cons d rest ih =>
      intro seen
      cases hh : d.hash? with
      | none =>
          simp only [specKeepFirstPerFingerprint, dupMids, hh, List.length_cons]
          have := ih seen
          omega
      | some h =>
          by_cases he : h = ""
          · simp only [specKeepFirstPerFingerprint, dupMids, hh, if_pos he,
              List.length_cons]
            have := ih seen
            omega
          · by_cases hs : h ∈ seen
            · simp only [specKeepFirstPerFingerprint, dupMids, hh, if_neg he,
                if_pos hs, List.length_cons]
              have := ih seen
              omega
            · simp only [specKeepFirstPerFingerprint, dupMids, hh, if_neg he,
                if_neg hs, List.length_cons]
              have := ih (seen ++ [h])
              omega

theorem deleteOneById_middle (done : List Doc) :
    ∀ (d : Doc) (rest : List Doc), d.mid ∉ done.map (·.mid) →
      deleteOneById (done ++ d :: rest) d.mid = done ++ rest := by
  induction done with
  | nil => intro d rest _; simp [deleteOneById]
  | cons e done2 ih =>
      intro d rest hmem
      have hne : e.mid ≠ d.mid := by
        intro he2
        exact hmem (by simp [he2.symm])
      have hd : d.mid ∉ done2.map (·.mid) := by
        intro hx
        exact hmem (by simp [hx])
      rw [List.cons_append, deleteOneById_skip e _ _ hne, ih d rest hd]
      simp

theorem sweepLoop_db (docs : List Doc) :
    ∀ seen mega done removed total,
      ((done ++ docs).map (·.mid)).Nodup →
      (sweepLoop docs seen mega (done ++ docs) removed total).2.1 =
        done ++ specKeepFirstPerFingerprint docs seen := by
  induction docs with
  | nil =>
      intro seen mega done removed total _
      simp [sweepLoop, specKeepFirstPerFingerprint]
  | cons d rest ih =>
      intro seen mega done removed total hnd
      have hshift : done ++ d :: rest = (done ++ [d]) ++ rest := by simp
      have hsub : ((done ++ rest).map (·.mid)).Nodup := by
        refine List.Nodup.sublist ?_ hnd
        refine List.Sublist.map _ ?_
        exact List.Sublist.append_left (List.sublist_cons_self d rest) done
      have hdm : d.mid ∉ done.map (·.mid) := by
        rw [List.map_append] at hnd
        have hdis := List.disjoint_of_nodup_append hnd
        intro hx
        exact hdis hx (by simp)
      cases hh : d.hash? with
      | none =>
          simp only [sweepLoop, hh, specKeepFirstPerFingerprint]
          rw [hshift, ih seen mega (done ++ [d]) removed (total + 1)
            (by rw [← hshift]; exact hnd)]
          simp
      | some h =>
          by_cases he : h = ""
          · simp only [sweepLoop, hh, if_pos he, specKeepFirstPerFingerprint]
            rw [hshift, ih seen mega (done ++ [d]) removed (total + 1)
              (by rw [← hshift]; exact hnd)]
            simp
          · by_cases hs : h ∈ seen
            · simp only [sweepLoop, hh, if_neg he, if_pos hs,
                specKeepFirstPerFingerprint]
              rw [deleteOneById_middle done d rest hdm]
              exact ih seen _ done (removed ++ [d.mid]) (total + 1) hsub
            · simp only [sweepLoop, hh, if_neg he, if_neg hs,
                specKeepFirstPerFingerprint]
              rw [hshift, ih (seen ++ [h]) mega (done ++ [d]) removed (total + 1)
                (by rw [← hshift]; exact hnd)]
              simp

theorem mem_megaIds_destroy {s : MegaState} {x m : Nat}
    (h : m ∈ megaIds (megaDestroy s x)) : m ∈ megaIds s ∧ m ≠ x := by
  simp only [megaIds, megaDestroy, List.mem_map] at h
  obtain ⟨e, he, hm⟩ := h
  have hf := List.mem_filter.mp he
  refine ⟨List.mem_map.mpr ⟨e, hf.1, hm⟩, ?_⟩
  intro hmx
  have := hf.2
  rw [← hm] at hmx
  simp [hmx] at this

theorem sweepLoop_mega_mono (docs : List Doc) :
    ∀ seen mega db removed total m, m ∉ megaIds mega →
      m ∉ megaIds (sweepLoop docs seen mega db removed total).1 := by
  induction docs with
  | nil => intro seen mega db removed total m hm; simpa [sweepLoop] using hm
  | cons d rest ih =>
      intro seen mega db removed total m hm
      cases hh : d.hash? with
      | none => simp only [sweepLoop, hh]; exact ih _ _ _ _ _ m hm
      | some h =>
          by_cases he : h = ""
          · simp only [sweepLoop, hh, if_pos he]; exact ih _ _ _ _ _ m hm
          · by_cases hs : h ∈ seen
            · simp only [sweepLoop, hh, if_neg he, if_pos hs]
              cases hmi : d.megaId with
              | none => exact ih _ _ _ _ _ m hm
              | some x =>
                  refine ih _ _ _ _ _ m ?_
                  intro hmem
                  exact hm (mem_megaIds_destroy hmem).1
            · simp only [sweepLoop, hh, if_neg he, if_neg hs]
              exact ih _ _ _ _ _ m hm

theorem sweepLoop_mega_gone (docs : List Doc) :
    ∀ seen mega db removed total (d : Doc), d ∈ docs →
      d ∉ specKeepFirstPerFingerprint docs seen →
      ∀ m, d.megaId = some m →
        m ∉ megaIds (sweepLoop docs seen mega db removed total).1 := by
  induction docs with
  | nil => intro _ _ _ _ _ d hd; exact absurd hd (by simp)
  | cons d0 rest ih =>
      intro seen mega db removed total d hd hrem m hm
      cases hh : d0.hash? with
      | none =>
          rw [show specKeepFirstPerFingerprint (d0 :: rest) seen =
              d0 :: specKeepFirstPerFingerprint rest seen by
            simp [specKeepFirstPerFingerprint, hh]] at hrem
          have hd2 : d ∈ rest := by
            rcases List.mem_cons.mp hd with h1 | h1
            · exact absurd (by simp [h1]) hrem
            · exact h1
          simp only [sweepLoop, hh]
          exact ih _ _ _ _ _ d hd2 (fun hx => hrem (List.mem_cons_of_mem _ hx)) m hm
      | some h =>
          by_cases he : h = ""
          · rw [show specKeepFirstPerFingerprint (d0 :: rest) seen =
                d0 :: specKeepFirstPerFingerprint rest seen by
              simp [specKeepFirstPerFingerprint, hh, he]] at hrem
            have hd2 : d ∈ rest := by
              rcases List.mem_cons.mp hd with h1 | h1
              · exact absurd (by simp [h1]) hrem
              · exact h1
            simp only [sweepLoop, hh, if_pos he]
            exact ih _ _ _ _ _ d hd2 (fun hx => hrem (List.mem_cons_of_mem _ hx)) m hm
          · by_cases hs : h ∈ seen
            · rw [show specKeepFirstPerFingerprint (d0 :: rest) seen =
                  specKeepFirstPerFingerprint rest seen by
                simp [specKeepFirstPerFingerprint, hh, he, hs]] at hrem
              simp only [sweepLoop, hh, if_neg he, if_pos hs]
              rcases List.mem_cons.mp hd with h1 | h1
              · -- the head itself is the duplicate being destroyed
                subst h1
                rw [hm]
                refine sweepLoop_mega_mono rest _ _ _ _ _ m ?_
                intro hmem
                exact (mem_megaIds_destroy hmem).2 rfl
              · exact ih _ _ _ _ _ d h1 hrem m hm
            · rw [show specKeepFirstPerFingerprint (d0 :: rest) seen =
                  d0 :: specKeepFirstPerFingerprint rest (seen ++ [h]) by
                simp [specKeepFirstPerFingerprint, hh, he, hs]] at hrem
              have hd2 : d ∈ rest := by
                rcases List.mem_cons.mp hd with h1 | h1
                · exact absurd (by simp [h1]) hrem
                · exact h1
              simp only [sweepLoop, hh, if_neg he, if_neg hs]
              exact ih _ _ _ _ _ d hd2 (fun hx => hrem (List.mem_cons_of_mem _ hx)) m hm

/-- C3.  The sweep scans every record once in collection order, keeps the
first record seen per fingerprint (and each record without a usable hash),
deletes every later record sharing a seen fingerprint, destroys the deleted
records' remote objects, and reports the scan and removal counts. -/
theorem remove_all_duplicates_spec (st : AppState)
    (hmid : (st.db.map (·.mid)).Nodup) :
    (remove_all_duplicates st).1.scanned = st.db.length
    ∧ (remove_all_duplicates st).2.db = specKeepFirstPerFingerprint st.db []
    ∧ (remove_all_duplicates st).1.removedCount +
        ((remove_all_duplicates st).2.db).length = st.db.length
    ∧ ∀ d ∈ st.db, d ∉ (remove_all_duplicates st).2.db →
        ∀ m, d.megaId = some m → m ∉ megaIds (remove_all_duplicates st).2.mega := by
  have hdb : (sweepLoop st.db [] st.mega st.db [] 0).2.1 =
      specKeepFirstPerFingerprint st.db [] := by
    have := sweepLoop_db st.db [] st.mega [] [] 0 (by simpa using hmid)
    simpa using this
  have hdb2 : (remove_all_duplicates st).2.db =
      specKeepFirstPerFingerprint st.db [] := hdb
  refine ⟨?_, hdb2, ?_, ?_⟩
  · show (sweepLoop st.db [] st.mega st.db [] 0).2.2.2 = st.db.length
    rw [sweepLoop_scanned]
    omega
  · show (sweepLoop st.db [] st.mega st.db [] 0).2.2.1.length +
        (sweepLoop st.db [] st.mega st.db [] 0).2.1.length = st.db.length
    rw [sweepLoop_removed, hdb]
    have := specKeep_dupMids_length st.db []
    simp only [List.nil_append]
    omega
  · intro d hd hrem m hm
    rw [hdb2] at hrem
    show m ∉ megaIds (sweepLoop st.db [] st.mega st.db [] 0).1
    exact sweepLoop_mega_gone st.db [] st.mega st.db [] 0 d hd hrem m hm

/-- The spec's three-record store: records A, B, C inserted in order, all
sharing one fingerprint, each owning a remote object under the root. -/
def demoSweepSt : AppState :=
  ⟨⟨[(0, ⟨1, some (some "dataset"), none⟩),
     (10, ⟨0, some (some "a"), some 0⟩),
     (11, ⟨0, some (some "b"), some 0⟩),
     (12, ⟨0, some (some "c"), some 0⟩)], 13⟩,
   [⟨0, some 10, ["glass"], some "H"⟩,
    ⟨1, some 11, ["metal"], some "H"⟩,
    ⟨2, some 12, ["paper"], some "H"⟩], 3⟩

/-- Witness for `remove_all_duplicates_spec`: on the A, B, C store the sweep
retains A, removes B and C, and reports scanned 3 / removed 2. -/
theorem remove_all_duplicates_spec_witness :
    (demoSweepSt.db.map (·.mid)).Nodup
    ∧ (remove_all_duplicates demoSweepSt).1.scanned = 3
    ∧ (remove_all_duplicates demoSweepSt).1.removedCount = 2
    ∧ (remove_all_duplicates demoSweepSt).2.db =
        [⟨0, some 10, ["glass"], some "H"⟩] := by
  have hmid : (demoSweepSt.db.map (·.mid)).Nodup := by decide
  have h := remove_all_duplicates_spec demoSweepSt hmid
  refine ⟨hmid, h.1.trans (by decide), ?_, h.2.1.trans (by decide)⟩
  have h3 := h.2.2.1
  rw [h.2.1] at h3
  have : (specKeepFirstPerFingerprint demoSweepSt.db []).length = 1 := by decide
  rw [this] at h3
  have hlen : demoSweepSt.db.length = 3 := by decide
  omega

/-! `delete_category` (C4) and `delete_dataset_image` (C5). -/

/-- Total runner for `delete_category`: the state after a successful call,
the unchanged state on the 400 error. -/
def runDeleteCategory (st : AppState) (hier : List String) : AppState :=
  match delete_category st hier with
  | .ok r => r.2
  | .error _ => st

/-- C4 counterexample.  On a state holding the `glass` remote folder (id 1),
its file object (id 2) and a matching metadata record, `delete_category
["glass"]` leaves the Mega store — including the folder at exactly that
path — completely untouched: it does not delete the remote folder. -/
theorem delete_category_leaves_remote_folder :
    (runDeleteCategory demoSt1 ["glass"]).mega = demoSt1.mega
    ∧ (1, (⟨1, some (some "glass"), some 0⟩ : Meta)) ∈
        (runDeleteCategory demoSt1 ["glass"]).mega.files
    ∧ (2, (⟨0, some (some "f1"), some 1⟩ : Meta)) ∈
        (runDeleteCategory demoSt1 ["glass"]).mega.files
    ∧ demoSt1.db.countP (fun d => d.hierarchy == ["glass"]) = 1 := by
  refine ⟨by decide, by decide, by decide, by decide⟩

/-- C4 amended.  `delete_category` deletes no remote folder: it removes
exactly the metadata records whose hierarchy equals the given path (keeping
every record under any other hierarchy — no cascade) and returns the removed
node together with its parent path (`None` for a top-level category). -/
theorem delete_category_db_only (st : AppState) (hier : List String)
    (h : hier ≠ []) :
    delete_category st hier =
      .ok (⟨hier.getLast h,
            if 1 < hier.length then some hier.dropLast else none⟩,
           runDeleteCategory st hier)
    ∧ (runDeleteCategory st hier).mega = st.mega
    ∧ (runDeleteCategory st hier).db =
        st.db.filter (fun d => !(d.hierarchy == hier))
    ∧ ∀ d ∈ st.db, d.hierarchy ≠ hier → d ∈ (runDeleteCategory st hier).db := by
  have hrun : runDeleteCategory st hier =
      ⟨st.mega, st.db.filter (fun d => !(d.hierarchy == hier)), st.nextMid⟩ := by
    simp [runDeleteCategory, delete_category, h]
  refine ⟨?_, ?_, ?_, ?_⟩
  · rw [hrun]
    simp [delete_category, h]
  · rw [hrun]
  · rw [hrun]
  · intro d hd hne
    rw [hrun]
    exact List.mem_filter.mpr ⟨hd, by simpa using hne⟩

/-- Witness for `delete_category_db_only` at the concrete one-record
state. -/
theorem delete_category_db_only_witness :
    (["glass"] : List String) ≠ []
    ∧ (runDeleteCategory demoSt1 ["glass"]).mega = demoSt1.mega
    ∧ (runDeleteCategory demoSt1 ["glass"]).db = [] := by
  have h := delete_category_db_only demoSt1 ["glass"] (by decide)
  refine ⟨by decide, h.2.1, h.2.2.1.trans (by decide)⟩

theorem megaDestroy_idem (s : MegaState) (fid : Nat) :
    megaDestroy (megaDestroy s fid) fid = megaDestroy s fid := by
  simp [megaDestroy, List.filter_filter]

theorem delete_from_mongo_notfound (l : List Doc) (fid : Nat)
    (h : l.countP (fun d => d.megaId == some fid) = 0) :
    delete_from_mongo l fid = (l, 0) := by
  induction l with
  | nil => rfl
  | cons d rest ih =>
      rcases hx : (d.megaId == some fid) with _ | _
      · have hd2 : d.megaId ≠ some fid := by simpa using hx
        have hcc : List.countP (fun x => x.megaId == some fid) (d :: rest) =
            List.countP (fun x => x.megaId == some fid) rest :=
          List.countP_cons_of_neg _ _ (by simp [hx])
        have hr : rest.countP (fun d => d.megaId == some fid) = 0 := by
          rw [hcc] at h
          exact h
        simp only [delete_from_mongo, if_neg hd2, ih hr]
      · exfalso
        have hcc : List.countP (fun x => x.megaId == some fid) (d :: rest) =
            List.countP (fun x => x.megaId == some fid) rest + 1 :=
          List.countP_cons_of_pos _ _ hx
        rw [hcc] at h
        omega

theorem countP_delete_from_mongo (l : List Doc) (fid : Nat)
    (h : l.countP (fun d => d.megaId == some fid) ≤ 1) :
    (delete_from_mongo l fid).1.countP (fun d => d.megaId == some fid) = 0 := by
  induction l with
  | nil => rfl
  | cons d rest ih =>
      by_cases hd : d.megaId = some fid
      · have hx : (d.megaId == some fid) = true := by simpa using hd
        have hcc : List.countP (fun x => x.megaId == some fid) (d :: rest) =
            List.countP (fun x => x.megaId == some fid) rest + 1 :=
          List.countP_cons_of_pos _ _ hx
        have hz : rest.countP (fun d => d.megaId == some fid) = 0 := by
          rw [hcc] at h
          omega
        simp only [delete_from_mongo, if_pos hd]
        exact hz
      · have hx : (d.megaId == some fid) = false := by simpa using hd
        have hcc : List.countP (fun x => x.megaId == some fid) (d :: rest) =
            List.countP (fun x => x.megaId == some fid) rest :=
          List.countP_cons_of_neg _ _ (by simp [hx])
        have hr : rest.countP (fun d => d.megaId == some fid) ≤ 1 := by
          rw [hcc] at h
          exact h
        simp only [delete_from_mongo, if_neg hd]
        show List.countP (fun d => d.megaId == some fid)
            (d :: (delete_from_mongo rest fid).1) = 0
        have hcc2 : List.countP (fun x => x.megaId == some fid)
            (d :: (delete_from_mongo rest fid).1) =
            List.countP (fun x => x.megaId == some fid)
              (delete_from_mongo rest fid).1 :=
          List.countP_cons_of_neg _ _ (by simp [hx])
        rw [hcc2, ih hr]

/-- C5.  Deleting a dataset image answers success (HTTP 200) whether or not
the remote object and the metadata record exist; repeating the call with the
same id answers success again and — on any state in which Mega file ids
identify at most one record, as uploads create them — has no further side
effect. -/
theorem delete_dataset_image_idempotent (st : AppState) (fid : Nat) :
    (delete_dataset_image st fid).1 = 200
    ∧ (delete_dataset_image (delete_dataset_image st fid).2 fid).1 = 200
    ∧ (st.db.countP (fun d => d.megaId == some fid) ≤ 1 →
        delete_dataset_image (delete_dataset_image st fid).2 fid =
          (200, (delete_dataset_image st fid).2)) := by
  refine ⟨rfl, rfl, ?_⟩
  intro hc
  have hz : ((delete_from_mongo st.db fid).1).countP
      (fun d => d.megaId == some fid) = 0 := countP_delete_from_mongo st.db fid hc
  show (200, (⟨megaDestroy (megaDestroy st.mega fid) fid,
      (delete_from_mongo (delete_from_mongo st.db fid).1 fid).1,
      st.nextMid⟩ : AppState)) = (200, (delete_dataset_image st fid).2)
  rw [megaDestroy_idem, delete_from_mongo_notfound _ fid hz]
  rfl

/-- Witness for `delete_dataset_image_idempotent` at the concrete
one-record state, deleting Mega file 2 twice. -/
theorem delete_dataset_image_idempotent_witness :
    demoSt1.db.countP (fun d => d.megaId == some 2) ≤ 1
    ∧ delete_dataset_image (delete_dataset_image demoSt1 2).2 2 =
        (200, (delete_dataset_image demoSt1 2).2) := by
  refine ⟨by decide, (delete_dataset_image_idempotent demoSt1 2).2.2 (by decide)⟩

/-! `category_utils.py`: the category tree builder (C6, C7). -/

/-- A category tree: a name-to-subtree mapping, as the Python code's nested
dicts. -/
inductive CatTree where
  | node : List (String × CatTree) → CatTree

/-- Python dict assignment `tree[name] = subtree`: replace in place when the
key exists, append otherwise. -/
def dictInsert : List (String × CatTree) → String → CatTree → List (String × CatTree)
  | [], nm, t => [(nm, t)]
  | (nm2, t2) :: rest, nm, t =>
      if nm2 = nm then (nm2, t) :: rest else (nm2, t2) :: dictInsert rest nm t

/-- Model of `parent_map.setdefault(parent, []).append((fid, meta))`. -/
def pmAdd : List (Option Nat × List (Nat × Meta)) → Option Nat → (Nat × Meta) →
    List (Option Nat × List (Nat × Meta))
  | [], k, e => [(k, [e])]
  | (k2, l) :: rest, k, e =>
      if k2 = k then (k2, l ++ [e]) :: rest else (k2, l) :: pmAdd rest k e

/-- The parent map built by `get_categories` (`category_utils.py` lines
26-28): parent id → children in node-map order. -/
def parentMapOf (files : List (Nat × Meta)) : List (Option Nat × List (Nat × Meta)) :=
  files.foldl (fun pm e => pmAdd pm e.2.p e) []

/-- Model of `parent_map.get(node_id, [])`. -/
def pmLookup : List (Option Nat × List (Nat × Meta)) → Option Nat → List (Nat × Meta)
  | [], _ => []
  | (k2, l) :: rest, k => if k2 = k then l else pmLookup rest k

/-- A child entry the tree builder turns into a subtree: a folder (`t == 1`)
with an `"a"` dict holding a truthy name. -/
def isProperFolder (m : Meta) : Bool :=
  m.t == 1 &&
    (match m.attrA with
     | some a =>
         (match a with
          | some nm => !(nm == "")
          | none => false)
     | none => false)

/-- The child loop shared by `_build_tree_from_maps` (lines 6-12) and the
fallback of `get_categories` (lines 50-55): walk the entries, skip non-folder
or nameless ones, and assign `tree[name] = build(child_id)` for the rest. -/
def buildEntries (build : Nat → CatTree) :
    List (Nat × Meta) → List (String × CatTree) → List (String × CatTree)
  | [], acc => acc
  | (cid, m) :: rest, acc =>
      if m.t = 1 then
        match m.attrA with
        | some a =>
            match a with
            | some nm =>
                if nm = "" then buildEntries build rest acc
                else buildEntries build rest (dictInsert acc nm (build cid))
            | none => buildEntries build rest acc
        | none => buildEntries build rest acc
      else buildEntries build rest acc

/-- Model of `_build_tree_from_maps` (`category_utils.py` lines 3-13).  The Python
recursion terminates because the store's folder graph is acyclic; the model
carries explicit fuel (callers pass the node count, which bounds the tree
depth).  The Python `files_map` parameter is passed along but never used, so
it is dropped here. -/
def _build_tree_from_maps (pm : List (Option Nat × List (Nat × Meta))) :
    Nat → Nat → CatTree
  | 0, _ => .node []
  | fuel + 1, nodeId =>
      .node (buildEntries (fun cid => _build_tree_from_maps pm fuel cid)
        (pmLookup pm (some nodeId)) [])

/-- Python `str.lower()` at the codepoint level (ASCII case fold, which covers the
folder names in play). -/
def lowerCodes (s : String) : List Nat :=
  s.data.map (fun c =>
    let n := c.toNat
    if 65 ≤ n ∧ n ≤ 90 then n + 32 else n)

/-- The dataset-root scan of `get_categories` (lines 31-37): first folder
whose truthy name matches the requested name case-insensitively. -/
def findDatasetId (files : List (Nat × Meta)) (dname : String) : Option Nat :=
  (files.find? (fun e => e.2.t == 1 &&
    (match e.2.attrA with
     | some a =>
         (match a with
          | some nm => !(nm == "") && (lowerCodes nm == lowerCodes dname)
          | none => false)
     | none => false))).map (·.1)

/-- The fallback roots (lines 43-47): entries whose parent is `None` or not a
key of the files map. -/
def rootsOf (files : List (Nat × Meta)) : List (Nat × Meta) :=
  files.filter (fun e =>
    match e.2.p with
    | none => true
    | some par => !(files.any (fun f => f.1 == par)))

/-- Model of `get_categories` (`category_utils.py` lines 16-57): build the nested
category tree under the `dataset` folder, falling back to the store's
top-level folders when no such folder exists. -/
def get_categories (files : List (Nat × Meta)) (dname : String) : CatTree :=
  let pm := parentMapOf files
  match findDatasetId files dname with
  | some did => _build_tree_from_maps pm files.length did
  | none =>
      .node (buildEntries (fun fid => _build_tree_from_maps pm files.length fid)
        (rootsOf files) [])

/-- Height of a category tree: 0 for a leaf, one more than the tallest child
otherwise. -/
def CatTree.height : CatTree → Nat
  | .node [] => 0
  | .node ((_, c) :: rest) => max (c.height + 1) (CatTree.height (.node rest))

/-- Top-level keys of a category tree. -/
def CatTree.keys : CatTree → List String
  | .node cs => cs.map (·.1)

/-- Relation `Rep files id t`: the store's folder graph below node `id` is exactly the
finite tree `t` — the buildable children of `id` (in node-map order) carry
the ids and names listed by `pairs`, names are distinct (the claim speaks of
a name-to-subtree mapping), and each child subtree is represented
recursively. -/
inductive Rep (files : List (Nat × Meta)) : Nat → CatTree → Prop where
  | node (id : Nat) (pairs : List (Nat × String × CatTree))
      (hchild : ((files.filter (fun e => e.2.p == some id)).filter
          (fun e => isProperFolder e.2)).map (fun e => (e.1, e.2.name)) =
        pairs.map (fun q => (q.1, some q.2.1)))
      (hnames : (pairs.map (fun q => q.2.1)).Nodup)
      (hrec : ∀ q ∈ pairs, Rep files q.1 q.2.2) :
      Rep files id (.node (pairs.map (fun q => (q.2.1, q.2.2))))

theorem pmLookup_pmAdd (pm : List (Option Nat × List (Nat × Meta)))
    (k2 k : Option Nat) (e : Nat × Meta) :
    pmLookup (pmAdd pm k2 e) k =
      if k2 = k then pmLookup pm k ++ [e] else pmLookup pm k := by
  induction pm with
  | nil =>
      by_cases h : k2 = k <;> simp [pmAdd, pmLookup, h]
  | cons b rest ih =>
      obtain ⟨k3, l⟩ := b
      by_cases h32 : k3 = k2
      · subst h32
        by_cases h3k : k3 = k
        · simp [pmAdd, pmLookup, h3k]
        · simp [pmAdd, pmLookup, h3k]
      · by_cases h3k : k3 = k
        · subst h3k
          have : ¬k2 = k3 := fun h2 => h32 h2.symm
          simp [pmAdd, pmLookup, h32, this]
        · simp [pmAdd, pmLookup, h32, h3k, ih]

theorem pmLookup_parentMapOf (files : List (Nat × Meta)) (k : Option Nat) :
    pmLookup (parentMapOf files) k = files.filter (fun e => e.2.p == k) := by
  suffices h : ∀ pm0, pmLookup (files.foldl (fun pm e => pmAdd pm e.2.p e) pm0) k =
      pmLookup pm0 k ++ files.filter (fun e => e.2.p == k) by
    simpa [parentMapOf, pmLookup] using h []
  induction files with
  | nil => intro pm0; simp
  | cons e rest ih =>
      intro pm0
      rw [List.foldl_cons, ih (pmAdd pm0 e.2.p e), pmLookup_pmAdd]
      by_cases hp : e.2.p = k
      · simp [List.filter_cons, hp]
      · have hpb : (e.2.p == k) = false := by simpa using hp
        simp [List.filter_cons, hp, hpb]

theorem isProperFolder_dest {m : Meta} (h : isProperFolder m = true) :
    m.t = 1 ∧ ∃ nm, m.attrA = some (some nm) ∧ nm ≠ "" := by
  unfold isProperFolder at h
  have hb := (Bool.and_eq_true _ _).mp h
  refine ⟨by simpa using hb.1, ?_⟩
  rcases ha : m.attrA with _ | a
  · rw [ha] at hb; exact absurd hb.2 (by simp)
  · rcases hn : a with _ | nm
    · rw [ha, hn] at hb; exact absurd hb.2 (by simp)
    · refine ⟨nm, by simp [ha, hn], ?_⟩
      rw [ha, hn] at hb
      simpa using hb.2

theorem buildEntries_cons_proper (build : Nat → CatTree) (e : Nat × Meta)
    (L : List (Nat × Meta)) (acc : List (String × CatTree)) (nm : String)
    (hp : isProperFolder e.2 = true) (hnm : e.2.name = some nm) :
    buildEntries build (e :: L) acc =
      buildEntries build L (dictInsert acc nm (build e.1)) := by
  obtain ⟨ht, nm2, ha, hne⟩ := isProperFolder_dest hp
  have hnm2 : nm2 = nm := by
    simp only [Meta.name, ha, Option.bind_some] at hnm
    exact Option.some.inj hnm
  subst hnm2
  obtain ⟨cid, m⟩ := e
  simp only at ht ha
  simp [buildEntries, ht, ha, hne]

theorem buildEntries_cons_improper (build : Nat → CatTree) (e : Nat × Meta)
    (L : List (Nat × Meta)) (acc : List (String × CatTree))
    (hp : isProperFolder e.2 = false) :
    buildEntries build (e :: L) acc = buildEntries build L acc := by
  obtain ⟨cid, m⟩ := e
  simp only [isProperFolder] at hp
  by_cases ht : m.t = 1
  · rcases ha : m.attrA with _ | a
    · simp [buildEntries, ht, ha]
    · rcases hn : a with _ | nm
      · simp [buildEntries, ht, ha, hn]
      · have hz : (nm == "") = true := by
          rw [ha, hn] at hp
          have ht2 : (m.t == 1) = true := by simpa using ht
          rw [ht2] at hp
          simpa using hp
        have : nm = "" := by simpa using hz
        simp [buildEntries, ht, ha, hn, this]
  · simp [buildEntries, ht]

theorem keys_dictInsert (acc : List (String × CatTree)) (nm2 nm : String)
    (t : CatTree) :
    nm ∈ (dictInsert acc nm2 t).map (·.1) ↔ nm ∈ acc.map (·.1) ∨ nm = nm2 := by
  induction acc with
  | nil => simp [dictInsert]
  | cons b rest ih =>
      obtain ⟨nm3, t3⟩ := b
      by_cases h : nm3 = nm2
      · subst h
        simp [dictInsert]
        tauto
      · simp only [dictInsert, if_neg h, List.map_cons, List.mem_cons]
        rw [ih]
        tauto

theorem dictInsert_notmem (acc : List (String × CatTree)) (nm : String)
    (t : CatTree) (h : nm ∉ acc.map (·.1)) :
    dictInsert acc nm t = acc ++ [(nm, t)] := by
  induction acc with
  | nil => rfl
  | cons b rest ih =>
      obtain ⟨nm2, t2⟩ := b
      have hne : nm2 ≠ nm := by
        intro he
        exact h (by simp [he])
      simp only [dictInsert, if_neg hne, List.cons_append]
      rw [ih (fun hx => h (by simp; right; simpa using hx))]

theorem buildEntries_of_pairs (build : Nat → CatTree) :
    ∀ (L : List (Nat × Meta)) (pairs : List (Nat × String × CatTree))
      (acc : List (String × CatTree)),
      ((L.filter (fun e => isProperFolder e.2)).map (fun e => (e.1, e.2.name)) =
        pairs.map (fun q => (q.1, some q.2.1))) →
      (pairs.map (fun q => q.2.1)).Nodup →
      (∀ nm ∈ acc.map (·.1), nm ∉ pairs.map (fun q => q.2.1)) →
      buildEntries build L acc = acc ++ pairs.map (fun q => (q.2.1, build q.1)) := by
  intro L
  induction L with
  | nil =>
      intro pairs acc hch _ _
      simp only [List.filter_nil, List.map_nil] at hch
      have : pairs = [] := by
        cases pairs with
        | nil => rfl
        | cons q r => simp at hch
      subst this
      simp [buildEntries]
  | cons e L2 ih =>
      intro pairs acc hch hnd hdis
      rcases hp : isProperFolder e.2 with _ | _
      · rw [buildEntries_cons_improper build e L2 acc hp]
        refine ih pairs acc ?_ hnd hdis
        rw [List.filter_cons, hp] at hch
        simpa using hch
      · rw [List.filter_cons, hp] at hch
        simp only [cond_true, List.map_cons] at hch
        cases pairs with
        | nil => simp at hch
        | cons q pairs2 =>
            simp only [List.map_cons] at hch
            have hhead := List.head_eq_of_cons_eq hch
            have htail := List.tail_eq_of_cons_eq hch
            have hid : e.1 = q.1 := congrArg Prod.fst hhead
            have hname : e.2.name = some q.2.1 := congrArg Prod.snd hhead
            rw [buildEntries_cons_proper build e L2 acc q.2.1 hp hname]
            rw [dictInsert_notmem acc q.2.1 (build e.1)
              (fun hx => hdis q.2.1 hx (by simp))]
            rw [List.map_cons] at hnd
            have hq : q.2.1 ∉ pairs2.map (fun q => q.2.1) :=
              (List.nodup_cons.mp hnd).1
            have := ih pairs2 (acc ++ [(q.2.1, build e.1)]) htail
              (List.nodup_cons.mp hnd).2 ?_
            · rw [this, hid]
              simp
            · intro nm hnm
              rw [List.map_append] at hnm
              rcases List.mem_append.mp hnm with hx | hx
              · intro hmem
                exact hdis nm hx (by simp [hmem])
              · have : nm = q.2.1 := by simpa using hx
                subst this
                exact hq

theorem height_le_of_mem {cs : List (String × CatTree)} {p : String × CatTree}
    (h : p ∈ cs) : p.2.height + 1 ≤ CatTree.height (.node cs) := by
  induction cs with
  | nil => simp at h
  | cons b rest ih =>
      obtain ⟨nm, c⟩ := b
      rcases List.mem_cons.mp h with h1 | h1
      · rw [h1]
        simp only [CatTree.height]
        exact le_max_left _ _
      · calc p.2.height + 1 ≤ CatTree.height (.node rest) := ih h1
          _ ≤ CatTree.height (.node ((nm, c) :: rest)) := by
              simp only [CatTree.height]
              exact le_max_right _ _

theorem height_zero_nil {cs : List (String × CatTree)}
    (h : CatTree.height (.node cs) = 0) : cs = [] := by
  cases cs with
  | nil => rfl
  | cons b rest =>
      obtain ⟨nm, c⟩ := b
      exfalso
      simp only [CatTree.height] at h
      have := le_max_left (c.height + 1) (CatTree.height (.node rest))
      omega

theorem catTree_induction {P : CatTree → Prop}
    (h : ∀ cs, (∀ p ∈ cs, P p.2) → P (CatTree.node cs)) : ∀ t, P t
  | .node cs => h cs (fun p hp => catTree_induction h p.2)
termination_by t => sizeOf t
decreasing_by
  have h1 := List.sizeOf_lt_of_mem hp
  obtain ⟨nm, c⟩ := p
  simp at h1 ⊢
  omega

/-- The builder computes any represented finite tree exactly, given fuel at
least the tree's height. -/
theorem build_tree_of_rep (files : List (Nat × Meta)) :
    ∀ (t : CatTree) (id fuel : Nat), Rep files id t → t.height ≤ fuel →
      _build_tree_from_maps (parentMapOf files) fuel id = t := by
  refine catTree_induction ?_
  intro cs ih id fuel hrep hh
  cases hrep with
  | node _ pairs hchild hnames hrec =>
      cases fuel with
      | zero =>
          have h0 : CatTree.height (.node (pairs.map fun q => (q.2.1, q.2.2))) = 0 :=
            Nat.le_zero.mp hh
          have : pairs.map (fun q => (q.2.1, q.2.2)) = [] := height_zero_nil h0
          rw [_build_tree_from_maps, this]
      | succ f =>
          rw [_build_tree_from_maps, pmLookup_parentMapOf]
          have hbe := buildEntries_of_pairs
            (fun cid => _build_tree_from_maps (parentMapOf files) f cid)
            (files.filter (fun e => e.2.p == some id)) pairs [] hchild hnames
            (by intro nm hnm; simp at hnm)
          rw [hbe, List.nil_append]
          have hmapeq : pairs.map
              (fun q => (q.2.1, _build_tree_from_maps (parentMapOf files) f q.1)) =
              pairs.map (fun q => (q.2.1, q.2.2)) := by
            refine List.map_congr_left ?_
            intro q hq
            have hmem : (q.2.1, q.2.2) ∈ pairs.map (fun q => (q.2.1, q.2.2)) :=
              List.mem_map_of_mem _ hq
            have hht : q.2.2.height + 1 ≤
                CatTree.height (.node (pairs.map fun q => (q.2.1, q.2.2))) := by
              simpa using height_le_of_mem hmem
            have := ih (q.2.1, q.2.2) hmem q.1 f (hrec q hq) (by simp; omega)
            rw [this]
          rw [hmapeq]

/-- The `metal → zinc, glass` store of the claim, with the `dataset` root. -/
def demoCatFiles : List (Nat × Meta) :=
  [(0, ⟨1, some (some "dataset"), none⟩),
   (1, ⟨1, some (some "metal"), some 0⟩),
   (2, ⟨1, some (some "zinc"), some 1⟩),
   (3, ⟨1, some (some "glass"), some 0⟩)]

/-- The claim's expected tree, empty leaf included. -/
def demoCatTree : CatTree :=
  .node [("metal", .node [("zinc", .node [])]), ("glass", .node [])]

/-- C6.  On every store whose folder graph under the dataset root is a finite
tree (`Rep`), `get_categories` builds exactly that nested name-to-subtree
mapping; on the claim's concrete store it builds
`{"metal": {"zinc": {}}, "glass": {}}` exactly. -/
theorem get_categories_builds_tree :
    (∀ (files : List (Nat × Meta)) (dname : String) (t : CatTree) (did : Nat),
        findDatasetId files dname = some did → Rep files did t →
        t.height ≤ files.length →
        get_categories files dname = t)
    ∧ get_categories demoCatFiles "dataset" = demoCatTree := by
  constructor
  · intro files dname t did hf hrep hh
    simp only [get_categories, hf]
    exact build_tree_of_rep files t did files.length hrep hh
  · rfl

/-- Witness for `get_categories_builds_tree`: its hypotheses hold at the
claim's concrete store. -/
theorem get_categories_builds_tree_witness :
    findDatasetId demoCatFiles "dataset" = some 0
    ∧ Rep demoCatFiles 0 demoCatTree
    ∧ CatTree.height demoCatTree ≤ demoCatFiles.length
    ∧ get_categories demoCatFiles "dataset" = demoCatTree := by
  have hzinc : Rep demoCatFiles 2 (.node []) := by
    have := @Rep.node demoCatFiles 2 [] (by rfl) (by simp)
      (by intro q hq; simp at hq)
    simpa using this
  have hglass : Rep demoCatFiles 3 (.node []) := by
    have := @Rep.node demoCatFiles 3 [] (by rfl) (by simp)
      (by intro q hq; simp at hq)
    simpa using this
  have hmetal : Rep demoCatFiles 1 (.node [("zinc", .node [])]) := by
    have := @Rep.node demoCatFiles 1 [(2, "zinc", .node [])] (by rfl)
      (by simp)
      (by
        intro q hq
        simp at hq
        rw [hq]
        exact hzinc)
    simpa using this
  have hroot : Rep demoCatFiles 0 demoCatTree := by
    have := @Rep.node demoCatFiles 0
      [(1, "metal", .node [("zinc", .node [])]), (3, "glass", .node [])] (by rfl)
      (by simp)
      (by
        intro q hq
        simp at hq
        rcases hq with hq | hq <;> rw [hq]
        · exact hmetal
        · exact hglass)
    simpa [demoCatTree] using this
  have hh : CatTree.height demoCatTree ≤ demoCatFiles.length := by
    simp [CatTree.height, demoCatTree, demoCatFiles]
  refine ⟨by decide, hroot, hh, ?_⟩
  exact get_categories_builds_tree.1 demoCatFiles "dataset" demoCatTree 0
    (by decide) hroot hh

/-- A store with no `dataset` root but one top-level folder. -/
def demoNoRootFiles : List (Nat × Meta) := [(0, ⟨1, some (some "metal"), none⟩)]

/-- C7 counterexample.  With the dataset root missing but a top-level folder
present, `get_categories` returns that folder as a category — a non-empty
tree, not the empty tree the claim asserts. -/
theorem get_categories_fallback_not_empty :
    findDatasetId demoNoRootFiles "dataset" = none
    ∧ get_categories demoNoRootFiles "dataset" =
        CatTree.node [("metal", CatTree.node [])]
    ∧ get_categories demoNoRootFiles "dataset" ≠ CatTree.node [] := by
  refine ⟨by decide, rfl, ?_⟩
  have h2 : get_categories demoNoRootFiles "dataset" =
      CatTree.node [("metal", CatTree.node [])] := rfl
  rw [h2]
  simp

theorem mem_keys_buildEntries (build : Nat → CatTree) :
    ∀ (L : List (Nat × Meta)) (acc : List (String × CatTree)) (nm : String),
      nm ∈ (buildEntries build L acc).map (·.1) ↔
        nm ∈ acc.map (·.1) ∨
          ∃ e ∈ L, isProperFolder e.2 = true ∧ e.2.name = some nm := by
  intro L
  induction L with
  | nil =>
      intro acc nm
      simp [buildEntries]
  | cons e L2 ih =>
      intro acc nm
      rcases hp : isProperFolder e.2 with _ | _
      · rw [buildEntries_cons_improper build e L2 acc hp, ih]
        constructor
        · rintro (hx | ⟨e2, he2, hpe2, hne2⟩)
          · exact Or.inl hx
          · exact Or.inr ⟨e2, List.mem_cons_of_mem _ he2, hpe2, hne2⟩
        · rintro (hx | ⟨e2, he2, hpe2, hne2⟩)
          · exact Or.inl hx
          · rcases List.mem_cons.mp he2 with h1 | h1
            · rw [h1] at hpe2
              rw [hp] at hpe2
              cases hpe2
            · exact Or.inr ⟨e2, h1, hpe2, hne2⟩
      · obtain ⟨ht, nm2, ha, hne⟩ := isProperFolder_dest hp
        have hname : e.2.name = some nm2 := by simp [Meta.name, ha]
        rw [buildEntries_cons_proper build e L2 acc nm2 hp hname, ih,
          keys_dictInsert]
        constructor
        · rintro ((hx | hx) | ⟨e2, he2, hpe2, hne2⟩)
          · exact Or.inl hx
          · exact Or.inr ⟨e, List.mem_cons_self _ _, hp, by rw [hname, hx]⟩
          · exact Or.inr ⟨e2, List.mem_cons_of_mem _ he2, hpe2, hne2⟩
        · rintro (hx | ⟨e2, he2, hpe2, hne2⟩)
          · exact Or.inl (Or.inl hx)
          · rcases List.mem_cons.mp he2 with h1 | h1
            · refine Or.inl (Or.inr ?_)
              rw [h1, hname] at hne2
              exact Option.some.inj hne2.symm
            · exact Or.inr ⟨e2, h1, hpe2, hne2⟩

/-- C7 amended.  When the dataset root is missing or renamed,
`get_categories` returns a tree without failing, by treating the store's
top-level folders as the categories: the resulting top-level keys are
exactly the names of the buildable top-level folders (so the tree is empty
exactly when there are none, not in general). -/
theorem get_categories_fallback_spec (files : List (Nat × Meta)) (dname : String)
    (hmiss : findDatasetId files dname = none) :
    (∃ cs, get_categories files dname = CatTree.node cs)
    ∧ ∀ nm, nm ∈ (get_categories files dname).keys ↔
        ∃ e ∈ rootsOf files, isProperFolder e.2 = true ∧ e.2.name = some nm := by
  have hgc : get_categories files dname =
      CatTree.node (buildEntries
        (fun fid => _build_tree_from_maps (parentMapOf files) files.length fid)
        (rootsOf files) []) := by
    simp only [get_categories, hmiss]
  refine ⟨⟨_, hgc⟩, ?_⟩
  intro nm
  rw [hgc]
  show nm ∈ (buildEntries _ (rootsOf files) []).map (·.1) ↔ _
  rw [mem_keys_buildEntries]
  simp

/-- Witness for `get_categories_fallback_spec` at the one-folder store. -/
theorem get_categories_fallback_spec_witness :
    findDatasetId demoNoRootFiles "dataset" = none
    ∧ ("metal" ∈ (get_categories demoNoRootFiles "dataset").keys ↔
        ∃ e ∈ rootsOf demoNoRootFiles, isProperFolder e.2 = true ∧
          e.2.name = some "metal") := by
  refine ⟨by decide, ?_⟩
  exact (get_categories_fallback_spec demoNoRootFiles "dataset" (by decide)).2 "metal"

/-! `predict` (`app.py` lines 58-124), C9. -/

/-- The classifier's output for the top object (`result["objects"][0]`).
Confidence is a real number in `[0,1]`; the embedding uses `ℚ`. -/
structure Classification where
  label : String
  confidence : ℚ
  hierarchy : List String
  dominantColor : String

/-- The prediction record inserted into the `predictions` collection
(`app.py` lines 101-108); timestamp and Mega file id do not depend on the
classification and are omitted. -/
structure PredRecord where
  label : String
  hierarchy : List String
  confidence : ℚ
  dominantColor : String

/-- The HTTP 201 response body (`app.py` lines 112-122); the displayed
percentage (`round(confidence * 100, 2)`) is presentation-only and not
modelled. -/
structure PredResponse where
  label : String
  hierarchy : List String
  mainType : String
  subType : String
  subSubType : String
  dominantColor : String

/-- The record/response computation of `predict` (`app.py` lines 91-122):
a confidence strictly below 0.6 replaces the label with `"Unknown"` (the
confidence itself is kept), and an empty hierarchy is replaced with
`["Unknown"]`. -/
def predictOutputs (c : Classification) : PredRecord × PredResponse :=
  let label := if c.confidence < 0.6 then "Unknown" else c.label
  let hierarchy := if c.hierarchy.isEmpty then ["Unknown"] else c.hierarchy
  (⟨label, hierarchy, c.confidence, c.dominantColor⟩,
   ⟨label, hierarchy, hierarchy.getD 0 "N/A", hierarchy.getD 1 "N/A",
    hierarchy.getD 2 "N/A", c.dominantColor⟩)

/-- C9.  Below-threshold confidence turns the stored and returned label into
`"Unknown"` while the stored confidence is unchanged; an empty classifier
hierarchy becomes `["Unknown"]` in both the record and the response. -/
theorem predict_unknown_handling (c : Classification) :
    (predictOutputs c).1.confidence = c.confidence
    ∧ (c.confidence < 0.6 →
        (predictOutputs c).1.label = "Unknown"
        ∧ (predictOutputs c).2.label = "Unknown")
    ∧ (c.hierarchy = [] →
        (predictOutputs c).1.hierarchy = ["Unknown"]
        ∧ (predictOutputs c).2.hierarchy = ["Unknown"]) := by
  refine ⟨rfl, ?_, ?_⟩
  · intro h
    simp [predictOutputs, h]
  · intro h
    simp [predictOutputs, h]

/-- Witness for `predict_unknown_handling` at a concrete low-confidence,
empty-hierarchy classification. -/
theorem predict_unknown_handling_witness :
    ((1 : ℚ)/2 < 0.6)
    ∧ (predictOutputs ⟨"plastic", 1/2, [], "#aabbcc"⟩).1.label = "Unknown"
    ∧ (predictOutputs ⟨"plastic", 1/2, [], "#aabbcc"⟩).1.confidence = 1/2
    ∧ (predictOutputs ⟨"plastic", 1/2, [], "#aabbcc"⟩).2.hierarchy = ["Unknown"] := by
  have hc : ((1 : ℚ)/2 < 0.6) := by norm_num
  have h := predict_unknown_handling ⟨"plastic", 1/2, [], "#aabbcc"⟩
  exact ⟨hc, (h.2.1 hc).1, h.1, (h.2.2 rfl).2⟩

/-! `save_to_mongo` (`db_utils.py` lines 25-41), C10. -/

/-- A caller-supplied record for `save_to_mongo`, with the three fields the
hash logic reads.  `filePath = some ""` models a present-but-falsy
`file_path`. -/
structure MRecord where
  hash? : Option String
  filePath : Option String
  fileBytes : Option Bytes
  deriving DecidableEq

/-- The local file system `open(record["file_path"], "rb")` reads from. -/
abbrev FileSystem := List (String × Bytes)

def lookupFs : FileSystem → String → Option Bytes
  | [], _ => none
  | (p, b) :: rest, q => if p = q then some b else lookupFs rest q

/-- The `elif "file_bytes" in record` branch of `save_to_mongo` and the
final `raise`. -/
def saveViaBytes (md5 : Bytes → String) (record : MRecord)
    (col : List MRecord) : Except String MRecord × List MRecord :=
  match record.fileBytes with
  | some bs =>
      let r2 := { record with hash? := some (md5 bs) }
      (.ok r2, col ++ [r2])
  | none => (.error "Cannot save record: missing hash and file content.", col)

/-- Model of `save_to_mongo` (`db_utils.py` lines 25-41): ensure a hash is stored —
keep an existing one, else hash the file at `file_path` (when present and
truthy), else hash `file_bytes`, else raise without inserting — then insert
the record. -/
def save_to_mongo (md5 : Bytes → String) (fs : FileSystem) (record : MRecord)
    (col : List MRecord) : Except String MRecord × List MRecord :=
  match record.hash? with
  | some _ => (.ok record, col ++ [record])
  | none =>
      match record.filePath with
      | some p =>
          if p = "" then saveViaBytes md5 record col
          else
            match lookupFs fs p with
            | some bs =>
                let r2 := { record with hash? := some (md5 bs) }
                (.ok r2, col ++ [r2])
            | none => (.error "open failed", col)
      | none => saveViaBytes md5 record col

/-- C10.  Every record `save_to_mongo` inserts carries a hash: a present
hash is kept, a missing one is computed from the file at `file_path` or
from `file_bytes`; with neither source present it raises and the collection
is unchanged. -/
theorem save_to_mongo_hash (md5 : Bytes → String) (fs : FileSystem)
    (record : MRecord) (col : List MRecord) :
    (∀ r2 col2, save_to_mongo md5 fs record col = (.ok r2, col2) →
        r2.hash?.isSome ∧ col2 = col ++ [r2])
    ∧ (record.hash? = none → record.filePath = none → record.fileBytes = none →
        ∃ msg, save_to_mongo md5 fs record col = (.error msg, col))
    ∧ (record.hash? = none → ∀ p bs, record.filePath = some p → p ≠ "" →
        lookupFs fs p = some bs →
        save_to_mongo md5 fs record col =
          (.ok { record with hash? := some (md5 bs) },
           col ++ [{ record with hash? := some (md5 bs) }]))
    ∧ (record.hash? = none →
        (record.filePath = none ∨ record.filePath = some "") →
        ∀ bs, record.fileBytes = some bs →
        save_to_mongo md5 fs record col =
          (.ok { record with hash? := some (md5 bs) },
           col ++ [{ record with hash? := some (md5 bs) }])) := by
  refine ⟨?_, ?_, ?_, ?_⟩
  · intro r2 col2 hok
    cases hh : record.hash? with
    | some h0 =>
        rw [show save_to_mongo md5 fs record col = (.ok record, col ++ [record])
          from by simp [save_to_mongo, hh]] at hok
        have hr : record = r2 := by
          have := congrArg Prod.fst hok
          simpa using this
        have hc : col ++ [record] = col2 := congrArg Prod.snd hok
        subst hr
        exact ⟨by simp [hh], hc.symm⟩
    | none =>
        cases hp : record.filePath with
        | some p =>
            by_cases hpe : p = ""
            · cases hb : record.fileBytes with
              | some bs =>
                  rw [show save_to_mongo md5 fs record col =
                      (.ok { record with hash? := some (md5 bs) },
                       col ++ [{ record with hash? := some (md5 bs) }]) from by
                    simp [save_to_mongo, saveViaBytes, hh, hp, hpe, hb]] at hok
                  have hr : { record with hash? := some (md5 bs) } = r2 := by
                    have := congrArg Prod.fst hok
                    simpa using this
                  have hc := congrArg Prod.snd hok
                  rw [← hr]
                  exact ⟨by simp, by simpa using hc.symm⟩
              | none =>
                  rw [show save_to_mongo md5 fs record col =
                      (.error "Cannot save record: missing hash and file content.",
                       col) from by
                    simp [save_to_mongo, saveViaBytes, hh, hp, hpe, hb]] at hok
                  exact absurd (congrArg Prod.fst hok) (by simp)
            · cases hl : lookupFs fs p with
              | some bs =>
                  rw [show save_to_mongo md5 fs record col =
                      (.ok { record with hash? := some (md5 bs) },
                       col ++ [{ record with hash? := some (md5 bs) }]) from by
                    simp [save_to_mongo, hh, hp, hpe, hl]] at hok
                  have hr : { record with hash? := some (md5 bs) } = r2 := by
                    have := congrArg Prod.fst hok
                    simpa using this
                  have hc := congrArg Prod.snd hok
                  rw [← hr]
                  exact ⟨by simp, by simpa using hc.symm⟩
              | none =>
                  rw [show save_to_mongo md5 fs record col =
                      (.error "open failed", col) from by
                    simp [save_to_mongo, hh, hp, hpe, hl]] at hok
                  exact absurd (congrArg Prod.fst hok) (by simp)
        | none =>
            cases hb : record.fileBytes with
            | some bs =>
                rw [show save_to_mongo md5 fs record col =
                    (.ok { record with hash? := some (md5 bs) },
                     col ++ [{ record with hash? := some (md5 bs) }]) from by
                  simp [save_to_mongo, saveViaBytes, hh, hp, hb]] at hok
                have hr : { record with hash? := some (md5 bs) } = r2 := by
                  have := congrArg Prod.fst hok
                  simpa using this
                have hc := congrArg Prod.snd hok
                rw [← hr]
                exact ⟨by simp, by simpa using hc.symm⟩
            | none =>
                rw [show save_to_mongo md5 fs record col =
                    (.error "Cannot save record: missing hash and file content.",
                     col) from by
                  simp [save_to_mongo, saveViaBytes, hh, hp, hb]] at hok
                exact absurd (congrArg Prod.fst hok) (by simp)
  · intro hh hp hb
    exact ⟨"Cannot save record: missing hash and file content.",
      by simp [save_to_mongo, saveViaBytes, hh, hp, hb]⟩
  · intro hh p bs hp hpe hl
    simp [save_to_mongo, hh, hp, hpe, hl]
  · intro hh hp bs hb
    rcases hp with hp | hp <;>
      simp [save_to_mongo, saveViaBytes, hh, hp, hb]

/-- Witness for `save_to_mongo_hash`: the raise case at a record with no
hash, no path and no bytes, and the bytes case at a record with only
bytes. -/
theorem save_to_mongo_hash_witness :
    save_to_mongo md5demo [] ⟨none, none, none⟩ [] =
      (.error "Cannot save record: missing hash and file content.", [])
    ∧ save_to_mongo md5demo [] ⟨none, none, some [7]⟩ [] =
        (.ok ⟨some (md5demo [7]), none, some [7]⟩,
         [⟨some (md5demo [7]), none, some [7]⟩]) := by
  constructor
  · obtain ⟨msg, hmsg⟩ :=
      (save_to_mongo_hash md5demo [] ⟨none, none, none⟩ []).2.1 rfl rfl rfl
    have h2 := hmsg
    rw [show save_to_mongo md5demo [] ⟨none, none, none⟩ [] =
        (.error "Cannot save record: missing hash and file content.", []) from by
      simp [save_to_mongo, saveViaBytes]] at h2
    have hm : "Cannot save record: missing hash and file content." = msg := by
      simpa using congrArg Prod.fst h2
    rw [hm]
    exact hmsg
  · exact (save_to_mongo_hash md5demo [] ⟨none, none, some [7]⟩ []).2.2.2 rfl
      (Or.inl rfl) [7] rfl

end TrashBackend
